import Mathlib

/-!
Verification of the mkaudiolibrary audio library.

This file is a shallow embedding of the parts of the library that the
checked properties talk about:

* the WAV sample decoding and format detection of `src/audiofile.rs`
  (`get_u16`, the 16/24-bit branches of `AudioFile::read_wav`, and
  `FileFormat::determine`);
* the lock-guarded buffer payloads of `src/buffer.rs` (`PushBuffer`,
  `CircularBuffer`), with the lock machinery stripped away: every operation
  studied here is performed under an exclusive write guard, so the guarded
  state evolves sequentially;
* the DSP processors of `src/dsp.rs` (`Convolution`, `Saturation`,
  `Compression`, `Delay`).

Exact integer and fixed-point computations are modelled in ℚ, transcendental
floating-point computations (`exp`, `log2`, `log10`, `powf`) in ℝ.  The `f64`
carrier itself is not modelled; properties stated about real arithmetic are
settled over ℝ/ℚ.
-/

-- ==========================================
-- Codec: byte readers and format detection (audiofile.rs)
-- ==========================================

/-- Byte-order selector, from `enum Endianness` in `audiofile.rs`. -/
inductive Endianness
  | Big
  | Little
  deriving DecidableEq

/-- Embeds `get_u16` from `audiofile.rs` (lines 1522-1541).  The bytes come
from a `u8` buffer, so every entry is below 256 and the `u16` shifts cannot
overflow.  Note that the `Little` arm reads the byte at `start` into the HIGH
bits (`(buffer[start] as u16) << 8 | buffer[start + 1]`), i.e. it assembles a
big-endian value, and the `Big` arm does the opposite. -/
def get_u16 (buffer : List ℕ) (start : ℕ) (endianness : Endianness) : ℕ :=
  if buffer.length ≥ start + 2 then
    match endianness with
    | Endianness.Big => ((buffer.getD (start + 1) 0) <<< 8) ||| buffer.getD start 0
    | Endianness.Little => ((buffer.getD start 0) <<< 8) ||| buffer.getD (start + 1) 0
  else 0

/-- Embeds `u16::cast_signed`: reinterpret the 16-bit pattern as a
two's-complement `i16`. -/
def castSigned16 (v : ℕ) : ℤ :=
  if v < 32768 then (v : ℤ) else (v : ℤ) - 65536

/-- Embeds `u32::cast_signed`: reinterpret the 32-bit pattern as a
two's-complement `i32`. -/
def castSigned32 (v : ℕ) : ℤ :=
  if v < 2147483648 then (v : ℤ) else (v : ℤ) - 4294967296

/-- Embeds the 16-bit sample branch of `AudioFile::read_wav`
(`audiofile.rs` lines 1010-1015):
`get_u16(buffer, sample_index, Endianness::Little).cast_signed() as f64 / i16::MAX as f64`.
The quotient of a small integer by 32767 is modelled in ℚ. -/
def readWavSample16 (buffer : List ℕ) (sample_index : ℕ) : ℚ :=
  (castSigned16 (get_u16 buffer sample_index Endianness.Little) : ℚ) / 32767

/-- Embeds the 24-bit sample branch of `AudioFile::read_wav`
(`audiofile.rs` lines 1016-1021) for the three payload bytes
`b0 = buffer[i]`, `b1 = buffer[i + 1]`, `b2 = buffer[i + 2]`.  The source
assembles the `u32` `(b2 << 16) | (b1 << 8) | b0`, reinterprets it as `i32`
via `cast_signed`, and then, WHEN BIT 23 IS ZERO (`sample & 0x800000 == 0`),
ORs in `!0xFFFFFF`, whose bit pattern is `0xFF000000`.  All bit operations
are performed here on the underlying 32-bit pattern (a natural number below
2 ^ 32) and the pattern is reinterpreted as `i32` at the end, which agrees
with the `i32` bitwise semantics of the source. -/
def readWavSample24 (b0 b1 b2 : ℕ) : ℚ :=
  let sample := (b2 <<< 16) ||| (b1 <<< 8) ||| b0
  let sample := if sample &&& 0x800000 = 0 then sample ||| 0xFF000000 else sample
  (castSigned32 sample : ℚ) / 8388607

/-- File format tag, from `enum FileFormat` in `audiofile.rs`. -/
inductive FileFormat
  | None
  | NotLoaded
  | Wav
  | Aiff
  deriving DecidableEq

/-- Embeds `FileFormat::determine` (`audiofile.rs` lines 237-247).  The
source decodes `data[0..4]` as UTF-8 and compares the result with the string
literals `"RIFF"` and `"Form"` (note the lower-case `orm`), returning `None`
when neither matches or when the UTF-8 decode fails.  For a four-byte slice,
equality with a four-character ASCII string is exactly equality of the byte
lists (and bytes that are not valid UTF-8 cannot equal an ASCII string, so
the UTF-8 failure path also lands in `None`).  `0x52 0x49 0x46 0x46` spells
RIFF and `0x46 0x6F 0x72 0x6D` spells Form. -/
def FileFormat.determine (data : List ℕ) : FileFormat :=
  if data.take 4 = [0x52, 0x49, 0x46, 0x46] then FileFormat.Wav
  else if data.take 4 = [0x46, 0x6F, 0x72, 0x6D] then FileFormat.Aiff
  else FileFormat.None

-- ==========================================
-- PushBuffer (buffer.rs)
-- ==========================================

/-- The lock-guarded payload of `PushBuffer` (`buffer.rs`): the storage and
the fill index.  Samples are modelled in ℚ; pushes move data without
arithmetic, so nothing is lost relative to `f64`. -/
structure PushBufferData where
  buffer : List ℚ
  index : ℕ
  deriving DecidableEq

/-- Embeds `PushBuffer::new(len)` (`buffer.rs` lines 294-307): storage filled
with the default value (0 for floats) and fill index 0. -/
def PushBufferData.new (len : ℕ) : PushBufferData :=
  { buffer := List.replicate len 0, index := 0 }

/-- Embeds `PushBufferWriteGuard::push` (`buffer.rs` lines 450-466); the
inherent `PushBuffer::push` (lines 358-376) has the identical body.  When the
buffer is full, `copy_within(1..len, 0)` followed by writing at `len - 1`
replaces the storage by `storage[1..] ++ [value]`. -/
def PushBufferData.push (d : PushBufferData) (value : ℚ) : PushBufferData :=
  let len := d.buffer.length
  if len = 0 then d
  else if d.index < len then
    { buffer := d.buffer.set d.index value, index := d.index + 1 }
  else
    { buffer := d.buffer.drop 1 ++ [value], index := d.index }

/-- Embeds `PushBuffer::set_index` (`buffer.rs` lines 382-386):
`guard.index = index.min(guard.buffer.len())`. -/
def PushBufferData.setIndex (d : PushBufferData) (index : ℕ) : PushBufferData :=
  { d with index := min index d.buffer.length }

/-- Folding `push` over a list of samples, oldest first. -/
def PushBufferData.pushAll (d : PushBufferData) (xs : List ℚ) : PushBufferData :=
  xs.foldl PushBufferData.push d

-- ==========================================
-- Convolution (dsp.rs)
-- ==========================================

/-- Embeds `Convolution` (`dsp.rs`): the push-buffer window and the kernel. -/
structure Convolution where
  buffer : PushBufferData
  kernel : List ℚ

/-- Embeds `Convolution::new` (`dsp.rs` lines 82-91): a `PushBuffer` of the
kernel length (window all zero), then `set_index(buffer.len())`, which makes
the window count as always full. -/
def Convolution.new (kernel : List ℚ) : Convolution :=
  let b := PushBufferData.new kernel.length
  { buffer := b.setIndex b.buffer.length, kernel := kernel }

/-- Embeds `Convolution::process` (`dsp.rs` lines 96-108): push the input
into the window, then `sum += window[i] * kernel[i]` for `i < kernel.len()`.
The window and the kernel have the same length, so the total `getD` indexing
never falls back to its default. -/
def Convolution.process (c : Convolution) (input : ℚ) : Convolution × ℚ :=
  let buf := c.buffer.push input
  let sum := ∑ i ∈ Finset.range c.kernel.length, buf.buffer.getD i 0 * c.kernel.getD i 0
  ({ c with buffer := buf }, sum)

/-- Feeds a list of samples through `Convolution::process` one at a time and
collects the outputs; this is also the loop body of `Convolution::run`
(`dsp.rs` lines 111-130). -/
def Convolution.processList (c : Convolution) : List ℚ → Convolution × List ℚ
  | [] => (c, [])
  | x :: xs =>
    let step := c.process x
    let rest := step.1.processList xs
    (rest.1, step.2 :: rest.2)

-- ==========================================
-- CircularBuffer (buffer.rs) and Delay sizing (dsp.rs)
-- ==========================================

/-- Models `usize::next_power_of_two` from the Rust standard library: the
smallest power of two that is greater than or equal to `n` (and 1 for
`n ≤ 1`), which is `2 ^ ⌈log₂ n⌉`. -/
def nextPowerOfTwo (n : ℕ) : ℕ := 2 ^ Nat.clog 2 n

/-- The lock-guarded payload of `CircularBuffer` (`buffer.rs`): storage, the
read and write pointers, and the index mask. -/
structure CircularBufferData where
  buffer : List ℚ
  read : ℕ
  write : ℕ
  mask : ℕ
  deriving DecidableEq

/-- Embeds `CircularBuffer::new(len)` (`buffer.rs` lines 555-571):
`actual_len = len.next_power_of_two().max(1)`, default-filled storage, both
pointers 0, `mask = actual_len - 1`. -/
def CircularBufferData.new (len : ℕ) : CircularBufferData :=
  let actual_len := max (nextPowerOfTwo len) 1
  { buffer := List.replicate actual_len 0, read := 0, write := 0, mask := actual_len - 1 }

/-- Embeds `CircularBuffer::resize(len)` (`buffer.rs` lines 619-628), which
reallocates with the same sizing rule as `new` and resets both pointers. -/
def CircularBufferData.resize (_d : CircularBufferData) (len : ℕ) : CircularBufferData :=
  let actual_len := max (nextPowerOfTwo len) 1
  { buffer := List.replicate actual_len 0, read := 0, write := 0, mask := actual_len - 1 }

/-- Embeds `CircularBufferWriteGuard::push` (`buffer.rs` lines 742-748):
write at the write pointer, then advance it masked.  In every state reached
here the write pointer is below the storage length, so the total `List.set`
never falls out of range. -/
def CircularBufferData.push (d : CircularBufferData) (value : ℚ) : CircularBufferData :=
  { d with
    buffer := d.buffer.set d.write value
    write := (d.write + 1) &&& d.mask }

/-- Embeds `CircularBufferWriteGuard::next` (`buffer.rs` lines 753-759):
return the element at the read pointer and advance it masked. -/
def CircularBufferData.next (d : CircularBufferData) : CircularBufferData × ℚ :=
  ({ d with read := (d.read + 1) &&& d.mask }, d.buffer.getD d.read 0)

/-- Folding `push` over a list of values, oldest first. -/
def CircularBufferData.pushAll (d : CircularBufferData) (xs : List ℚ) : CircularBufferData :=
  xs.foldl CircularBufferData.push d

/-- Calls `next` a given number of times and collects the returned values. -/
def CircularBufferData.nextN (d : CircularBufferData) : ℕ → CircularBufferData × List ℚ
  | 0 => (d, [])
  | n + 1 =>
    let step := d.next
    let rest := step.1.nextN n
    (rest.1, step.2 :: rest.2)

/-- Embeds the `f64 as usize` cast applied to the delay-sample computation in
`Delay::new`: truncation toward zero, saturating at 0 for negative inputs,
which on ℚ is `⌊q⌋.toNat`. -/
def ratToUsize (q : ℚ) : ℕ := ⌊q⌋.toNat

/-- Embeds the requested ring size of `Delay::new` / `Delay::set_time` /
`Delay::set_sample_rate` (`dsp.rs` lines 812-842):
`((time * 0.001 * sample_rate) as usize).max(1)`. -/
def Delay.delaySamples (time sample_rate : ℚ) : ℕ :=
  max (ratToUsize (time * (1 / 1000) * sample_rate)) 1

/-- The length of the ring actually owned by a `Delay` built by `Delay::new`:
the storage length of `CircularBuffer::new(delay_samples)`. -/
def Delay.ringLen (time sample_rate : ℚ) : ℕ :=
  ((CircularBufferData.new (Delay.delaySamples time sample_rate)).buffer).length

/-- Modelled from the claim wording, for comparison with the code: a ring of
length `max(1, round(ms * sr / 1000))`. -/
def Delay.ringLenClaim (time sample_rate : ℚ) : ℕ :=
  max 1 (round (time * sample_rate / 1000)).toNat

-- ==========================================
-- Saturation (dsp.rs)
-- ==========================================

/-- Embeds the `Saturation` state (`dsp.rs` lines 155-165). -/
structure Saturation where
  drive_alpha_plus : ℝ
  drive_alpha_minus : ℝ
  compression_beta_plus : ℝ
  compression_beta_minus : ℝ
  bias_delta : ℝ
  flip_polarity : Bool
  norm_factor_plus : ℝ
  norm_factor_minus : ℝ

/-- Embeds `Saturation::new` (`dsp.rs` lines 177-198): the alphas are clamped
below by `1e-4 = 1 / 10000` and the normalizers are
`1 / log2(1 + alpha)`. -/
noncomputable def Saturation.new (alpha_plus alpha_minus beta_plus beta_minus delta_bias : ℝ)
    (flip : Bool) : Saturation :=
  let drive_alpha_plus := max alpha_plus (1 / 10000)
  let drive_alpha_minus := max alpha_minus (1 / 10000)
  { drive_alpha_plus := drive_alpha_plus
    drive_alpha_minus := drive_alpha_minus
    compression_beta_plus := beta_plus
    compression_beta_minus := beta_minus
    bias_delta := delta_bias
    flip_polarity := flip
    norm_factor_plus := 1 / Real.logb 2 (1 + drive_alpha_plus)
    norm_factor_minus := 1 / Real.logb 2 (1 + drive_alpha_minus) }

/-- Embeds `Saturation::process` (`dsp.rs` lines 201-220); the source guard
is `input_sample >= self.bias_delta`. -/
noncomputable def Saturation.process (s : Saturation) (input_sample : ℝ) : ℝ :=
  let output_value :=
    if s.bias_delta ≤ input_sample then
      let relative_input := input_sample - s.bias_delta
      let log_out := Real.logb 2 (1 + s.drive_alpha_plus * relative_input)
      s.compression_beta_plus * (log_out * s.norm_factor_plus)
    else
      let relative_input := s.bias_delta - input_sample
      let log_out := Real.logb 2 (1 + s.drive_alpha_minus * relative_input)
      let neg_beta := -s.compression_beta_minus
      neg_beta * (log_out * s.norm_factor_minus)
  if s.flip_polarity then -output_value else output_value

-- ==========================================
-- Compression (dsp.rs)
-- ==========================================

/-- Embeds `db_to_ratio` (`dsp.rs` line 60): `10^(db / 20)`. -/
noncomputable def db_to_ratio (db : ℝ) : ℝ := (10 : ℝ) ^ (db / 20)

/-- Embeds the `Compression` state (`dsp.rs` lines 570-587). -/
structure Compression where
  threshold : ℝ
  ratio : ℝ
  attack : ℝ
  release : ℝ
  makeup : ℝ
  knee : ℝ
  envelope : ℝ
  attack_coeff : ℝ
  release_coeff : ℝ

/-- Embeds `Compression::update_coefficients` (`dsp.rs` lines 612-616):
`coeff = exp(-1 / (time_ms * 0.001 * sample_rate))`. -/
noncomputable def Compression.updateCoefficients (c : Compression) (sample_rate : ℝ) :
    Compression :=
  { c with
    attack_coeff := Real.exp (-1 / (c.attack * (1 / 1000) * sample_rate))
    release_coeff := Real.exp (-1 / (c.release * (1 / 1000) * sample_rate)) }

/-- Embeds `Compression::new` (`dsp.rs` lines 593-609): default parameters,
envelope 0, then `update_coefficients`. -/
noncomputable def Compression.new (sample_rate : ℝ) : Compression :=
  Compression.updateCoefficients
    { threshold := -20, ratio := 4, attack := 10, release := 100, makeup := 0,
      knee := 0, envelope := 0, attack_coeff := 0, release_coeff := 0 } sample_rate

/-- A `Compression` as configured by a caller: `Compression::new`, the public
parameter fields assigned, then `update_coefficients` again.  This is the
only way the private coefficient and envelope fields receive values in
`dsp.rs`, so it covers every compressor with the stated parameters. -/
noncomputable def Compression.configure
    (threshold ratio attack release makeup knee sample_rate : ℝ) : Compression :=
  Compression.updateCoefficients
    { Compression.new sample_rate with
      threshold := threshold, ratio := ratio, attack := attack,
      release := release, makeup := makeup, knee := knee } sample_rate

/-- Embeds `Compression::compute_gain` (`dsp.rs` lines 619-647).  The source
guards are `self.knee > 0.0`, `input_db <= lower`, `input_db >= upper`, and
in the hard-knee arm `input_db <= self.threshold`. -/
noncomputable def Compression.computeGain (c : Compression) (input_db : ℝ) : ℝ :=
  if 0 < c.knee then
    let half_knee := c.knee * (1 / 2)
    let lower := c.threshold - half_knee
    let upper := c.threshold + half_knee
    if input_db ≤ lower then 0
    else if upper ≤ input_db then
      c.threshold + (input_db - c.threshold) / c.ratio - input_db
    else
      let x := input_db - lower
      let slope := 1 / c.ratio - 1
      slope * x * x / (2 * c.knee)
  else
    if input_db ≤ c.threshold then 0
    else c.threshold + (input_db - c.threshold) / c.ratio - input_db

/-- Embeds one iteration of the loop body of `Compression::run`
(`dsp.rs` lines 656-674): level detection with the `1e-10` silence floor,
target gain reduction, one-pole envelope update with the attack coefficient
when the target is below the envelope and the release coefficient otherwise,
and the output sample `input * db_to_ratio(envelope) * db_to_ratio(makeup)`
(the source hoists `makeup_linear = db_to_ratio(makeup)` out of the loop). -/
noncomputable def Compression.step (c : Compression) (input : ℝ) : Compression × ℝ :=
  let input_abs := |input|
  let input_db :=
    if (1 / 10000000000 : ℝ) < input_abs then 20 * Real.logb 10 input_abs else -200
  let target_gr := c.computeGain input_db
  let coeff := if target_gr < c.envelope then c.attack_coeff else c.release_coeff
  let envelope := target_gr + coeff * (c.envelope - target_gr)
  let next := { c with envelope := envelope }
  (next, input * (db_to_ratio next.envelope * db_to_ratio c.makeup))

/-- Embeds `Compression::run` over a list of input samples (the output
buffer is at least as long as the input, so every input sample is
processed), returning the final state and the output samples. -/
noncomputable def Compression.runList (c : Compression) : List ℝ → Compression × List ℝ
  | [] => (c, [])
  | x :: xs =>
    let step := c.step x
    let rest := step.1.runList xs
    (rest.1, step.2 :: rest.2)

-- ==========================================
-- Theorems
-- ==========================================

/-- C1: the claim reads `16-bit WAV samples are read little-endian (least
significant byte first) and divided by 32767, so the byte pair FF 7F decodes
to 32767/32767 = 1.0`.  The code contradicts it: `get_u16` with
`Endianness::Little` puts the FIRST byte into the high bits, so the pair
`FF 7F` is assembled as `0xFF7F = 65407`, reinterpreted as the `i16` `-129`,
and normalized to `-129/32767`, not to `1.0`. -/
theorem c1_wav16_ff7f_decodes_to_minus_129 :
    readWavSample16 [0xFF, 0x7F] 0 = -129 / 32767 ∧
    readWavSample16 [0xFF, 0x7F] 0 ≠ 32767 / 32767 := by
  have h : get_u16 [0xFF, 0x7F] 0 Endianness.Little = 65407 := by decide
  constructor
  · unfold readWavSample16
    rw [h]
    norm_num [castSigned16]
  · unfold readWavSample16
    rw [h]
    norm_num [castSigned16]

/-- C3: the claim reads `the three little-endian payload bytes form a signed
24-bit integer that is sign-extended exactly when its top bit (0x800000) is
set`.  The code contradicts it: the guard at `audiofile.rs` line 1019 is
`sample & 0x800000 == 0`, so the high bits are ORed in exactly when the top
bit is CLEAR.  The positive sample `+1` (payload bytes `01 00 00`) becomes
`0xFF000001 = -16777215` and decodes to `-16777215/8388607` instead of
`1/8388607`, while the negative sample `-1` (payload bytes `FF FF FF`) stays
`0xFFFFFF = +16777215` and decodes to `16777215/8388607` instead of
`-1/8388607`. -/
theorem c3_wav24_sign_extension_inverted :
    (readWavSample24 0x01 0x00 0x00 = -16777215 / 8388607 ∧
      readWavSample24 0x01 0x00 0x00 ≠ 1 / 8388607) ∧
    (readWavSample24 0xFF 0xFF 0xFF = 16777215 / 8388607 ∧
      readWavSample24 0xFF 0xFF 0xFF ≠ -1 / 8388607) := by
  have h1 : readWavSample24 0x01 0x00 0x00 = (castSigned32 4278190081 : ℚ) / 8388607 := rfl
  have h2 : readWavSample24 0xFF 0xFF 0xFF = (castSigned32 16777215 : ℚ) / 8388607 := rfl
  refine ⟨⟨?_, ?_⟩, ?_, ?_⟩
  · rw [h1]; norm_num [castSigned32]
  · rw [h1]; norm_num [castSigned32]
  · rw [h2]; norm_num [castSigned32]
  · rw [h2]; norm_num [castSigned32]

/-- C4: the claim reads `format detection returns WAV when the first four
bytes are RIFF, AIFF when they are FORM, and a failure otherwise`.  The code
contradicts the AIFF half: `FileFormat::determine` compares with the
mixed-case literal `Form`, so the genuine on-disk magic `FORM`
(bytes `46 4F 52 4D`) falls through to `None`, while the never-occurring
byte sequence `Form` (bytes `46 6F 72 6D`) is classified as AIFF.  The RIFF
half behaves as claimed. -/
theorem c4_determine_rejects_uppercase_form :
    FileFormat.determine [0x46, 0x4F, 0x52, 0x4D] = FileFormat.None ∧
    FileFormat.determine [0x46, 0x6F, 0x72, 0x6D] = FileFormat.Aiff ∧
    FileFormat.determine [0x52, 0x49, 0x46, 0x46] = FileFormat.Wav := by
  decide

theorem push_of_length_eq_zero (d : PushBufferData) (v : ℚ)
    (h : d.buffer.length = 0) : d.push v = d := by
  unfold PushBufferData.push
  simp [h]

theorem take_succ_set (l : List ℚ) (j : ℕ) (x : ℚ) (h : j < l.length) :
    (l.set j x).take (j + 1) = l.take j ++ [x] := by
  rw [List.take_succ, List.set_take, List.getElem?_set_self (by simpa using h)]
  congr 1
  exact List.set_eq_of_length_le (by simp [Nat.min_le_left])

/-- Characterizes the storage after pushing enough samples to reach or pass
the fill boundary: the final storage is the suffix of `prefix kept ++ pushed`
of the storage length. -/
theorem pushAll_buffer_eq_drop (xs : List ℚ) : ∀ d : PushBufferData,
    d.index ≤ d.buffer.length → d.buffer.length ≤ d.index + xs.length →
    (d.pushAll xs).buffer =
      (d.buffer.take d.index ++ xs).drop (d.index + xs.length - d.buffer.length) := by
  induction xs with
  | nil =>
    intro d h1 h2
    have hi : d.index = d.buffer.length := le_antisymm h1 (by simpa using h2)
    simp [PushBufferData.pushAll, hi]
  | cons x xs ih =>
    intro d h1 h2
    have hstep : d.pushAll (x :: xs) = (d.push x).pushAll xs := rfl
    by_cases h0 : d.buffer.length = 0
    · have hnil : d.buffer = [] := List.eq_nil_of_length_eq_zero h0
      have hi : d.index = 0 := Nat.le_antisymm (h0 ▸ h1) (Nat.zero_le _)
      rw [hstep, push_of_length_eq_zero d x h0]
      have := ih d h1 (by simp [h0])
      rw [this]
      simp [hnil, hi]
    · have h2x : d.buffer.length ≤ d.index + (xs.length + 1) := by simpa using h2
      by_cases hlt : d.index < d.buffer.length
      · rw [hstep]
        have hpush : d.push x =
            { buffer := d.buffer.set d.index x, index := d.index + 1 } := by
          unfold PushBufferData.push
          simp [h0, hlt]
        rw [hpush]
        have := ih { buffer := d.buffer.set d.index x, index := d.index + 1 }
          (by simp only [List.length_set]; omega) (by simp only [List.length_set]; omega)
        rw [this]
        simp only [List.length_set]
        rw [take_succ_set d.buffer d.index x hlt]
        have harith : d.index + 1 + xs.length - d.buffer.length =
            d.index + (x :: xs).length - d.buffer.length := by
          simp only [List.length_cons]
          omega
        rw [harith]
        congr 1
        simp [List.append_assoc]
      · have hi : d.index = d.buffer.length := le_antisymm h1 (Nat.le_of_not_lt hlt)
        rw [hstep]
        have hpush : d.push x =
            { buffer := d.buffer.drop 1 ++ [x], index := d.index } := by
          unfold PushBufferData.push
          simp [h0, hlt]
        rw [hpush]
        have hlen1 : 1 ≤ d.buffer.length := Nat.one_le_iff_ne_zero.mpr h0
        have hlen : (d.buffer.drop 1 ++ [x]).length = d.buffer.length := by
          simp
          omega
        have := ih { buffer := d.buffer.drop 1 ++ [x], index := d.index }
          (by simp only [hlen]; exact h1) (by simp only [hlen]; omega)
        rw [this]
        simp only [hlen, hi]
        rw [List.take_of_length_le (le_of_eq hlen), List.take_length]
        have h3 : d.buffer.length + xs.length - d.buffer.length = xs.length := by omega
        have h4 : d.buffer.length + (x :: xs).length - d.buffer.length = xs.length + 1 := by
          simp only [List.length_cons]
          omega
        rw [h3, h4]
        have hsplit : (d.buffer ++ x :: xs).drop (xs.length + 1) =
            ((d.buffer.drop 1 ++ [x]) ++ xs).drop xs.length := by
          have hx : d.buffer ++ x :: xs = d.buffer ++ [x] ++ xs := by simp
          rw [hx]
          have hdrop1 : (d.buffer ++ [x] ++ xs).drop 1 = d.buffer.drop 1 ++ [x] ++ xs := by
            rw [List.append_assoc]
            rw [List.drop_append_of_le_length hlen1]
            simp
          calc (d.buffer ++ [x] ++ xs).drop (xs.length + 1)
              = ((d.buffer ++ [x] ++ xs).drop 1).drop xs.length := by
                rw [List.drop_drop, Nat.add_comm]
            _ = ((d.buffer.drop 1 ++ [x] ++ xs)).drop xs.length := by rw [hdrop1]
            _ = ((d.buffer.drop 1 ++ [x]) ++ xs).drop xs.length := by
                rw [List.append_assoc]
        exact hsplit.symm

/-- C7: for every push buffer of length `N ≥ 1` (in any reachable state: the
fill index never exceeds the storage length) and every sequence of at least
`N` pushed samples, the storage afterwards is exactly the last `N` pushed
samples in order, the newest at index `N - 1`. -/
theorem c7_pushbuffer_holds_last_n (d : PushBufferData) (xs : List ℚ)
    (hN : 1 ≤ d.buffer.length) (hidx : d.index ≤ d.buffer.length)
    (hM : d.buffer.length ≤ xs.length) :
    (d.pushAll xs).buffer = xs.drop (xs.length - d.buffer.length) := by
  rw [pushAll_buffer_eq_drop xs d hidx (by omega)]
  have hlen_take : (d.buffer.take d.index).length = d.index := by
    rw [List.length_take]
    exact Nat.min_eq_left hidx
  have harith : d.index + xs.length - d.buffer.length =
      (d.buffer.take d.index).length + (xs.length - d.buffer.length) := by
    rw [hlen_take]
    omega
  rw [harith, List.drop_append]

theorem c7_pushbuffer_holds_last_n_witness :
    1 ≤ (PushBufferData.new 2).buffer.length ∧
    (PushBufferData.new 2).index ≤ (PushBufferData.new 2).buffer.length ∧
    (PushBufferData.new 2).buffer.length ≤ ([1, 2, 3] : List ℚ).length ∧
    ((PushBufferData.new 2).pushAll [1, 2, 3]).buffer =
      ([1, 2, 3] : List ℚ).drop
        (([1, 2, 3] : List ℚ).length - (PushBufferData.new 2).buffer.length) :=
  ⟨by decide, by decide, by decide,
    c7_pushbuffer_holds_last_n (PushBufferData.new 2) [1, 2, 3]
      (by decide) (by decide) (by decide)⟩

/-- C10: pushing into a push buffer of length 0 is a total no-op: the
storage and the fill index are unchanged (the embedding is total, and the
source returns before any indexing when `len == 0`). -/
theorem c10_push_on_length_zero_is_noop (d : PushBufferData) (v : ℚ)
    (h : d.buffer.length = 0) :
    (d.push v).buffer = d.buffer ∧ (d.push v).index = d.index := by
  rw [push_of_length_eq_zero d v h]
  exact ⟨rfl, rfl⟩

theorem c10_push_on_length_zero_is_noop_witness :
    (PushBufferData.new 0).buffer.length = 0 ∧
    ((PushBufferData.new 0).push 5).buffer = (PushBufferData.new 0).buffer ∧
    ((PushBufferData.new 0).push 5).index = (PushBufferData.new 0).index :=
  ⟨rfl, c10_push_on_length_zero_is_noop (PushBufferData.new 0) 5 rfl⟩

theorem getD_replicate_zero (n i : ℕ) : (List.replicate n (0 : ℚ)).getD i 0 = 0 := by
  rw [List.getD_eq_getElem?_getD, List.getElem?_replicate]
  split <;> rfl

theorem processList_snd_cons (c : Convolution) (x : ℚ) (xs : List ℚ) :
    (c.processList (x :: xs)).2 = (c.process x).2 :: ((c.process x).1.processList xs).2 :=
  rfl

theorem process_fst (c : Convolution) (x : ℚ) :
    (c.process x).1 = { c with buffer := c.buffer.push x } :=
  rfl

theorem process_snd (c : Convolution) (x : ℚ) :
    (c.process x).2 =
      ∑ i ∈ Finset.range c.kernel.length,
        (c.buffer.push x).buffer.getD i 0 * c.kernel.getD i 0 :=
  rfl

theorem push_full_zero_window (m : ℕ) (v : ℚ) :
    (PushBufferData.mk (List.replicate (m + 1) 0) (m + 1)).push v =
      PushBufferData.mk (List.replicate m 0 ++ [v]) (m + 1) := by
  unfold PushBufferData.push
  simp only [List.length_replicate, Nat.succ_ne_zero, if_false, Nat.lt_irrefl, ite_false]
  rw [List.drop_replicate]
  simp

theorem window_dot_single (kernel : List ℚ) (a b : ℕ)
    (hab : a + 1 + b = kernel.length) :
    (∑ i ∈ Finset.range kernel.length,
        (List.replicate a (0 : ℚ) ++ 1 :: List.replicate b 0).getD i 0 * kernel.getD i 0) =
      kernel.getD a 0 := by
  have ha : a < kernel.length := by omega
  rw [Finset.sum_eq_single a]
  · have hwin : (List.replicate a (0 : ℚ) ++ 1 :: List.replicate b 0).getD a 0 = 1 := by
      rw [List.getD_eq_getElem?_getD, List.getElem?_append_right (by simp)]
      simp
    rw [hwin, one_mul]
  · intro i _ hne
    have hwin : (List.replicate a (0 : ℚ) ++ 1 :: List.replicate b 0).getD i 0 = 0 := by
      rcases Nat.lt_or_ge i a with hlt | hge
      · rw [List.getD_eq_getElem?_getD, List.getElem?_append_left (by simpa using hlt)]
        rw [← List.getD_eq_getElem?_getD]
        exact getD_replicate_zero a i
      · rw [List.getD_eq_getElem?_getD, List.getElem?_append_right (by simpa using hge)]
        simp only [List.length_replicate]
        rw [← List.getD_eq_getElem?_getD]
        have hpos : i - a = (i - a - 1) + 1 := by omega
        rw [hpos, List.getD_cons_succ]
        exact getD_replicate_zero b (i - a - 1)
    rw [hwin, zero_mul]
  · intro hnot
    exact absurd (Finset.mem_range.mpr ha) hnot

theorem window_dot_zero (kernel : List ℚ) (n : ℕ) :
    (∑ i ∈ Finset.range kernel.length,
        (List.replicate n (0 : ℚ)).getD i 0 * kernel.getD i 0) = 0 := by
  apply Finset.sum_eq_zero
  intro i _
  rw [getD_replicate_zero, zero_mul]

theorem processList_zero_window (kernel : List ℚ) (k : ℕ) :
    ((Convolution.mk (PushBufferData.mk (List.replicate kernel.length 0) kernel.length)
        kernel).processList (List.replicate k 0)).2 = List.replicate k 0 := by
  induction k with
  | zero => rfl
  | succ m ih =>
    rw [List.replicate_succ, processList_snd_cons, process_snd, process_fst]
    have hpush : (PushBufferData.mk (List.replicate kernel.length 0) kernel.length).push 0 =
        PushBufferData.mk (List.replicate kernel.length 0) kernel.length := by
      cases hn : kernel.length with
      | zero => exact push_of_length_eq_zero _ 0 (by simp)
      | succ m2 =>
        rw [push_full_zero_window]
        rw [← List.replicate_succ' m2 (0 : ℚ)]
    rw [hpush]
    dsimp only
    rw [window_dot_zero, ih]

theorem push_full (l : List ℚ) (n : ℕ) (v : ℚ) (h0 : l ≠ []) (hn : l.length ≤ n) :
    (PushBufferData.mk l n).push v = PushBufferData.mk (l.drop 1 ++ [v]) n := by
  unfold PushBufferData.push
  have hnlt : ¬ n < l.length := by omega
  simp [h0, hnlt, List.length_eq_zero]

theorem processList_marker (kernel : List ℚ) :
    ∀ k a b : ℕ, a + 1 + b = kernel.length → a ≤ k →
    ((Convolution.mk
        (PushBufferData.mk (List.replicate a (0 : ℚ) ++ 1 :: List.replicate b 0)
          kernel.length) kernel).processList (List.replicate k 0)).2 =
      (kernel.take a).reverse ++ List.replicate (k - a) 0 := by
  intro k
  induction k with
  | zero =>
    intro a b hab ha
    have ha0 : a = 0 := Nat.le_zero.mp ha
    subst ha0
    simp [Convolution.processList]
  | succ m ih =>
    intro a b hab ha
    rw [List.replicate_succ, processList_snd_cons, process_snd, process_fst]
    have hwlen : (List.replicate a (0 : ℚ) ++ 1 :: List.replicate b 0).length =
        kernel.length := by
      simp
      omega
    have hwne : (List.replicate a (0 : ℚ) ++ 1 :: List.replicate b 0) ≠ [] := by
      simp
    cases a with
    | zero =>
      have hN : b + 1 = kernel.length := by omega
      have hpush : (PushBufferData.mk
          (List.replicate 0 (0 : ℚ) ++ 1 :: List.replicate b 0) kernel.length).push 0 =
          PushBufferData.mk (List.replicate kernel.length 0) kernel.length := by
        rw [push_full _ _ _ hwne (le_of_eq hwlen)]
        simp only [List.replicate_zero, List.nil_append, List.drop_succ_cons, List.drop_zero]
        rw [← List.replicate_succ' b (0 : ℚ), hN]
      rw [hpush]
      dsimp only
      rw [window_dot_zero, processList_zero_window]
      simp [List.replicate_succ]
    | succ a2 =>
      have hpush : (PushBufferData.mk
          (List.replicate (a2 + 1) (0 : ℚ) ++ 1 :: List.replicate b 0) kernel.length).push 0 =
          PushBufferData.mk
            (List.replicate a2 (0 : ℚ) ++ 1 :: List.replicate (b + 1) 0) kernel.length := by
        rw [push_full _ _ _ hwne (le_of_eq hwlen)]
        have hdrop : (List.replicate (a2 + 1) (0 : ℚ) ++ 1 :: List.replicate b 0).drop 1 =
            List.replicate a2 (0 : ℚ) ++ 1 :: List.replicate b 0 := by
          rw [List.drop_append_of_le_length (by simp), List.drop_replicate]
          simp
        rw [hdrop, List.append_assoc, List.cons_append, ← List.replicate_succ' b (0 : ℚ)]
      rw [hpush]
      dsimp only
      rw [window_dot_single kernel a2 (b + 1) (by omega)]
      rw [ih a2 (b + 1) (by omega) (by omega)]
      have htake : (kernel.take (a2 + 1)).reverse =
          kernel.getD a2 0 :: (kernel.take a2).reverse := by
        have ha2 : a2 < kernel.length := by omega
        rw [List.take_succ, List.getElem?_eq_getElem ha2]
        rw [List.getD_eq_getElem?_getD, List.getElem?_eq_getElem ha2]
        simp
      rw [htake]
      have harith : m + 1 - (a2 + 1) = m - a2 := by omega
      rw [harith]
      rfl

/-- C2 (amended): the claim reads `the impulse response equals the kernel in
order`.  In the code the window keeps the NEWEST sample at the highest index
while the inner product pairs `window[i]` with `kernel[i]`, so feeding the
impulse `[1, 0, 0, ...]` (at least as many samples as the kernel length)
produces the kernel REVERSED, then zeros. -/
theorem c2_impulse_response_is_kernel_reversed (kernel : List ℚ) (k : ℕ)
    (h : kernel.length ≤ k + 1) :
    ((Convolution.new kernel).processList (1 :: List.replicate k 0)).2 =
      kernel.reverse ++ List.replicate (k + 1 - kernel.length) 0 := by
  have hnew : Convolution.new kernel =
      Convolution.mk (PushBufferData.mk (List.replicate kernel.length 0) kernel.length)
        kernel := by
    simp [Convolution.new, PushBufferData.new, PushBufferData.setIndex]
  rw [hnew, processList_snd_cons, process_snd, process_fst]
  by_cases hz : kernel.length = 0
  · have hk : kernel = [] := List.eq_nil_of_length_eq_zero hz
    subst hk
    have hpush : (PushBufferData.mk (List.replicate (List.length ([] : List ℚ)) 0)
        (List.length ([] : List ℚ))).push 1 =
        PushBufferData.mk (List.replicate (List.length ([] : List ℚ)) 0)
          (List.length ([] : List ℚ)) :=
      push_of_length_eq_zero _ 1 (by simp)
    rw [hpush]
    dsimp only
    rw [processList_zero_window ([] : List ℚ) k]
    simp [List.replicate_succ]
  · obtain ⟨b, hb⟩ : ∃ b, kernel.length = b + 1 := ⟨kernel.length - 1, by omega⟩
    have hpush : (PushBufferData.mk (List.replicate kernel.length 0) kernel.length).push 1 =
        PushBufferData.mk (List.replicate b (0 : ℚ) ++ 1 :: List.replicate 0 0)
          kernel.length := by
      rw [push_full _ _ _ (by rw [hb]; simp) (by simp)]
      rw [hb, List.drop_replicate]
      simp
    rw [hpush]
    dsimp only
    rw [window_dot_single kernel b 0 (by omega)]
    rw [processList_marker kernel k b 0 (by omega) (by omega)]
    have htake : (kernel.take (b + 1)).reverse = kernel.getD b 0 :: (kernel.take b).reverse := by
      have hblt : b < kernel.length := by omega
      rw [List.take_succ, List.getElem?_eq_getElem hblt]
      rw [List.getD_eq_getElem?_getD, List.getElem?_eq_getElem hblt]
      simp
    have hfull : kernel.take (b + 1) = kernel := by
      rw [← hb]
      exact List.take_length kernel
    have harith : k + 1 - kernel.length = k - b := by omega
    rw [harith]
    conv_rhs => rw [← hfull]
    rw [htake]
    rfl

theorem c2_impulse_response_is_kernel_reversed_witness :
    ([1, 2] : List ℚ).length ≤ 3 + 1 ∧
    ((Convolution.new [1, 2]).processList (1 :: List.replicate 3 0)).2 =
      ([1, 2] : List ℚ).reverse ++ List.replicate (3 + 1 - ([1, 2] : List ℚ).length) 0 :=
  ⟨by norm_num, c2_impulse_response_is_kernel_reversed [1, 2] 3 (by norm_num)⟩

/-- C2 (counterexample): for the kernel `[1, 2]` the claim as stated predicts
the outputs `[1, 2]` on the impulse input `[1, 0]`, but the code produces
`[2, 1]`: the first `process(1)` already returns `kernel[1]`, not
`kernel[0]`. -/
theorem c2_counterexample_outputs_reversed :
    ((Convolution.new [1, 2]).processList [1, 0]).2 = [2, 1] ∧
    ((Convolution.new [1, 2]).processList [1, 0]).2 ≠ [1, 2] := by
  have h : ((Convolution.new [1, 2]).processList [1, 0]).2 = [2, 1] := by
    norm_num [Convolution.new, PushBufferData.new, PushBufferData.setIndex,
      Convolution.processList, Convolution.process, PushBufferData.push,
      Finset.sum_range_succ]
  refine ⟨h, ?_⟩
  rw [h]
  intro hcontra
  exact absurd (List.cons.injEq .. ▸ hcontra) (by norm_num)

theorem one_le_pow2 (e : ℕ) : 1 ≤ 2 ^ e := Nat.one_le_two_pow

theorem nextPowerOfTwo_pow (e : ℕ) : nextPowerOfTwo (2 ^ e) = 2 ^ e := by
  unfold nextPowerOfTwo
  rw [Nat.clog_pow 2 e one_lt_two]

theorem circularBuffer_new_pow (e : ℕ) :
    CircularBufferData.new (2 ^ e) =
      CircularBufferData.mk (List.replicate (2 ^ e) 0) 0 0 (2 ^ e - 1) := by
  unfold CircularBufferData.new
  rw [nextPowerOfTwo_pow, Nat.max_eq_left (one_le_pow2 e)]

theorem circ_push_fill (e : ℕ) (ws : List ℚ) (v : ℚ) (h : ws.length < 2 ^ e) :
    (CircularBufferData.mk (ws ++ List.replicate (2 ^ e - ws.length) 0) 0
        (ws.length % 2 ^ e) (2 ^ e - 1)).push v =
      CircularBufferData.mk ((ws ++ [v]) ++ List.replicate (2 ^ e - (ws.length + 1)) 0) 0
        ((ws.length + 1) % 2 ^ e) (2 ^ e - 1) := by
  unfold CircularBufferData.push
  have hmod : ws.length % 2 ^ e = ws.length := Nat.mod_eq_of_lt h
  have hrep : List.replicate (2 ^ e - ws.length) (0 : ℚ) =
      0 :: List.replicate (2 ^ e - (ws.length + 1)) 0 := by
    have : 2 ^ e - ws.length = (2 ^ e - (ws.length + 1)) + 1 := by omega
    rw [this, List.replicate_succ]
  have hset : (ws ++ List.replicate (2 ^ e - ws.length) (0 : ℚ)).set ws.length v =
      (ws ++ [v]) ++ List.replicate (2 ^ e - (ws.length + 1)) 0 := by
    rw [List.set_append_right ws.length v (le_refl ws.length)]
    rw [Nat.sub_self, hrep, List.set_cons_zero]
    simp
  simp only [hmod, hset]
  rw [Nat.and_pow_two_sub_one_eq_mod]

theorem circ_pushAll_fill (e : ℕ) (vs : List ℚ) : ∀ ws : List ℚ,
    ws.length + vs.length ≤ 2 ^ e →
    (CircularBufferData.mk (ws ++ List.replicate (2 ^ e - ws.length) 0) 0
        (ws.length % 2 ^ e) (2 ^ e - 1)).pushAll vs =
      CircularBufferData.mk
        ((ws ++ vs) ++ List.replicate (2 ^ e - (ws.length + vs.length)) 0) 0
        ((ws.length + vs.length) % 2 ^ e) (2 ^ e - 1) := by
  induction vs with
  | nil =>
    intro ws h
    simp [CircularBufferData.pushAll]
  | cons v vs ih =>
    intro ws h
    have hws : ws.length < 2 ^ e := by
      have hlen : (v :: vs).length = vs.length + 1 := by simp
      omega
    have hstep : (CircularBufferData.mk (ws ++ List.replicate (2 ^ e - ws.length) 0) 0
        (ws.length % 2 ^ e) (2 ^ e - 1)).pushAll (v :: vs) =
        ((CircularBufferData.mk (ws ++ List.replicate (2 ^ e - ws.length) 0) 0
          (ws.length % 2 ^ e) (2 ^ e - 1)).push v).pushAll vs := rfl
    rw [hstep, circ_push_fill e ws v hws]
    have ihlen : (ws ++ [v]).length = ws.length + 1 := by simp
    have := ih (ws ++ [v]) (by simp at h ⊢; omega)
    rw [ihlen] at this
    rw [this]
    have h1 : (ws ++ [v]) ++ vs = ws ++ v :: vs := by simp
    have h2 : ws.length + 1 + vs.length = ws.length + (v :: vs).length := by simp; omega
    rw [h1, h2]

theorem circ_nextN_reads (e : ℕ) (bs : List ℚ) (w : ℕ) (hbs : bs.length = 2 ^ e) :
    ∀ n r : ℕ, r + n ≤ 2 ^ e →
    ((CircularBufferData.mk bs r w (2 ^ e - 1)).nextN n).2 = (bs.drop r).take n := by
  intro n
  induction n with
  | zero =>
    intro r h
    simp [CircularBufferData.nextN]
  | succ m ih =>
    intro r h
    have hr : r < 2 ^ e := by omega
    have hrb : r < bs.length := by omega
    have hnext : (CircularBufferData.mk bs r w (2 ^ e - 1)).next =
        (CircularBufferData.mk bs ((r + 1) % 2 ^ e) w (2 ^ e - 1), bs.getD r 0) := by
      unfold CircularBufferData.next
      rw [Nat.and_pow_two_sub_one_eq_mod]
    have hstep : ((CircularBufferData.mk bs r w (2 ^ e - 1)).nextN (m + 1)).2 =
        ((CircularBufferData.mk bs r w (2 ^ e - 1)).next).2 ::
          (((CircularBufferData.mk bs r w (2 ^ e - 1)).next).1.nextN m).2 := rfl
    rw [hstep, hnext]
    have hdrop : bs.drop r = bs.getD r 0 :: bs.drop (r + 1) := by
      rw [List.drop_eq_getElem_cons hrb]
      rw [List.getD_eq_getElem?_getD, List.getElem?_eq_getElem hrb]
      rfl
    rw [hdrop, List.take_succ_cons]
    rcases Nat.lt_or_ge (r + 1) (2 ^ e) with hlt | hge
    · rw [Nat.mod_eq_of_lt hlt]
      rw [ih (r + 1) (by omega)]
    · have hm : m = 0 := by omega
      subst hm
      simp [CircularBufferData.nextN]

/-- C6 (amended): the claim reads `after k ≤ M pushes into a fresh
power-of-two ring, k next() calls return the pushed values in order and every
further next() returns the default until another push occurs`.  The first
part holds, and the following `M - k` calls do return the default, but the
read pointer then wraps back onto the pushed values, so the sequence of the
first `M` reads is exactly `pushed values ++ defaults` and repeats from
there; it does not stay at the default.  This theorem proves the corrected
read-back: the first `M` next() calls return `v1, ..., vk, 0, ..., 0`. -/
theorem c6_ring_reads_pushed_then_defaults (e k : ℕ) (vs : List ℚ)
    (hk : vs.length = k) (hkM : k ≤ 2 ^ e) :
    (((CircularBufferData.new (2 ^ e)).pushAll vs).nextN (2 ^ e)).2 =
      vs ++ List.replicate (2 ^ e - k) 0 := by
  subst hk
  rw [circularBuffer_new_pow]
  have h0 := circ_pushAll_fill e vs [] (by simpa using hkM)
  simp only [List.nil_append, List.length_nil, Nat.zero_add, Nat.zero_mod, Nat.sub_zero] at h0
  rw [h0]
  have hlen : (vs ++ List.replicate (2 ^ e - vs.length) (0 : ℚ)).length = 2 ^ e := by
    simp
    omega
  have h2 := circ_nextN_reads e _ (vs.length % 2 ^ e) hlen (2 ^ e) 0 (by omega)
  simp only [List.drop_zero] at h2
  rw [h2, List.take_of_length_le (le_of_eq hlen)]

theorem c6_ring_reads_pushed_then_defaults_witness :
    ([5] : List ℚ).length = 1 ∧ 1 ≤ 2 ^ 1 ∧
    (((CircularBufferData.new (2 ^ 1)).pushAll [5]).nextN (2 ^ 1)).2 =
      [5] ++ List.replicate (2 ^ 1 - 1) 0 :=
  ⟨rfl, by norm_num, c6_ring_reads_pushed_then_defaults 1 1 [5] rfl (by norm_num)⟩

/-- C6 (counterexample): in a fresh ring of length `M = 1`, push the single
value 1 (k = 1 ≤ M, trivially distinct) and read it back with one `next()`.
The claim says every further `next()` returns the default 0 until another
push occurs, but the second `next()` wraps around and returns 1 again. -/
theorem c6_counterexample_read_wraps :
    (((CircularBufferData.new 1).push 1).nextN 2).2 = [1, 1] ∧
    (((CircularBufferData.new 1).push 1).nextN 2).2 ≠ [1, 0] := by
  have h : CircularBufferData.new 1 = CircularBufferData.mk [0] 0 0 0 := by
    have h0 := circularBuffer_new_pow 0
    simpa using h0
  rw [h]
  constructor
  · norm_num [CircularBufferData.push, CircularBufferData.nextN, CircularBufferData.next]
  · norm_num [CircularBufferData.push, CircularBufferData.nextN, CircularBufferData.next]

theorem ringLen_eq_nextPowerOfTwo (time sample_rate : ℚ) :
    Delay.ringLen time sample_rate = nextPowerOfTwo (Delay.delaySamples time sample_rate) := by
  unfold Delay.ringLen CircularBufferData.new
  simp only [List.length_replicate]
  exact Nat.max_eq_left (Nat.one_le_two_pow)

/-- C5 (amended): the claim reads `the Delay owns an internal ring of length
exactly max(1, round(ms * sr / 1000))`.  In the code the requested sample
count is `max(1, trunc(ms * sr / 1000))` (the `as usize` cast truncates, it
does not round) and `CircularBuffer::new` then rounds the requested count UP
to a power of two, so the ring length is the least power of two that is at
least `max(1, trunc(ms * sr / 1000))`. -/
theorem c5_ring_len_least_pow2_of_trunc (time sample_rate : ℚ) :
    ∃ e : ℕ, Delay.ringLen time sample_rate = 2 ^ e ∧
      Delay.delaySamples time sample_rate ≤ 2 ^ e ∧
      ∀ m : ℕ, Delay.delaySamples time sample_rate ≤ 2 ^ m → 2 ^ e ≤ 2 ^ m := by
  refine ⟨Nat.clog 2 (Delay.delaySamples time sample_rate), ?_, ?_, ?_⟩
  · rw [ringLen_eq_nextPowerOfTwo]
    rfl
  · exact Nat.le_pow_clog one_lt_two _
  · intro m hm
    exact Nat.pow_le_pow_right (by norm_num) ((Nat.le_pow_iff_clog_le one_lt_two).mp hm)

/-- C5 (counterexample): at 1000 ms and 3 Hz the product `ms * sr / 1000` is
exactly 3, so the claim predicts a ring of length `max(1, round(3)) = 3`, but
the code allocates the next power of two, a ring of length 4. -/
theorem c5_counterexample_ring_is_pow2 :
    Delay.ringLen 1000 3 = 4 ∧ Delay.ringLenClaim 1000 3 = 3 ∧
    Delay.ringLen 1000 3 ≠ Delay.ringLenClaim 1000 3 := by
  have hd : Delay.delaySamples 1000 3 = 3 := by
    unfold Delay.delaySamples ratToUsize
    norm_num
    decide
  have hc : Nat.clog 2 3 = 2 := by
    rw [Nat.clog_of_two_le one_lt_two (by norm_num)]
    have h1 : (3 + 2 - 1) / 2 = 2 := by norm_num
    have h2 : Nat.clog 2 2 = 1 := Nat.clog_eq_one (le_refl 2) (le_refl 2)
    rw [h1, h2]
  have hlen : Delay.ringLen 1000 3 = 4 := by
    rw [ringLen_eq_nextPowerOfTwo, hd]
    unfold nextPowerOfTwo
    rw [hc]
    norm_num
  have hclaim : Delay.ringLenClaim 1000 3 = 3 := by
    unfold Delay.ringLenClaim
    norm_num
    decide
  exact ⟨hlen, hclaim, by rw [hlen, hclaim]; norm_num⟩

/-- C9: for every parameter set with `flip = false`, the saturation curve
passes exactly through the anchor points: `process(delta) = 0`,
`process(delta + 1) = beta_plus` and `process(delta - 1) = -beta_minus`,
because the normalizers are the reciprocals of `log2(1 + alpha)` at the
clamped alphas (exact over real arithmetic). -/
theorem c9_saturation_anchor_points
    (alpha_plus alpha_minus beta_plus beta_minus delta_bias : ℝ) :
    (Saturation.new alpha_plus alpha_minus beta_plus beta_minus delta_bias false).process
        delta_bias = 0 ∧
    (Saturation.new alpha_plus alpha_minus beta_plus beta_minus delta_bias false).process
        (delta_bias + 1) = beta_plus ∧
    (Saturation.new alpha_plus alpha_minus beta_plus beta_minus delta_bias false).process
        (delta_bias - 1) = -beta_minus := by
  have hap : (0 : ℝ) < max alpha_plus (1 / 10000) :=
    lt_of_lt_of_le (by norm_num) (le_max_right _ _)
  have ham : (0 : ℝ) < max alpha_minus (1 / 10000) :=
    lt_of_lt_of_le (by norm_num) (le_max_right _ _)
  have hlp : 0 < Real.logb 2 (1 + max alpha_plus (1 / 10000)) :=
    Real.logb_pos one_lt_two (by linarith)
  have hlm : 0 < Real.logb 2 (1 + max alpha_minus (1 / 10000)) :=
    Real.logb_pos one_lt_two (by linarith)
  refine ⟨?_, ?_, ?_⟩
  · simp [Saturation.new, Saturation.process]
  · simp only [Saturation.new, Saturation.process]
    rw [if_pos (by linarith : delta_bias ≤ delta_bias + 1)]
    have h1 : delta_bias + 1 - delta_bias = 1 := by ring
    rw [h1, mul_one, mul_one_div_cancel hlp.ne', mul_one]
    simp
  · simp only [Saturation.new, Saturation.process]
    rw [if_neg (by linarith : ¬ delta_bias ≤ delta_bias - 1)]
    have h1 : delta_bias - (delta_bias - 1) = 1 := by ring
    rw [h1, mul_one, mul_one_div_cancel hlm.ne', mul_one]
    simp

theorem computeGain_nonpos (c : Compression) (hr : 1 ≤ c.ratio) (input_db : ℝ) :
    c.computeGain input_db ≤ 0 := by
  have hr0 : (0 : ℝ) < c.ratio := lt_of_lt_of_le one_pos hr
  have hinv : 1 / c.ratio ≤ 1 := by
    rw [div_le_one hr0]
    exact hr
  have hard : ∀ x : ℝ, c.threshold ≤ x →
      c.threshold + (x - c.threshold) / c.ratio - x ≤ 0 := by
    intro x hx
    have hfac : c.threshold + (x - c.threshold) / c.ratio - x =
        (x - c.threshold) * (1 / c.ratio - 1) := by
      field_simp
      ring
    rw [hfac]
    exact mul_nonpos_of_nonneg_of_nonpos (by linarith) (by linarith)
  unfold Compression.computeGain
  dsimp only
  split_ifs with hknee hlow hupper hth
  · exact le_refl 0
  · exact hard input_db (by linarith)
  · have hnum : (1 / c.ratio - 1) * (input_db - (c.threshold - c.knee * (1 / 2))) *
        (input_db - (c.threshold - c.knee * (1 / 2))) ≤ 0 := by
      rw [mul_assoc]
      exact mul_nonpos_of_nonpos_of_nonneg (by linarith) (mul_self_nonneg _)
    exact div_nonpos_iff.mpr (Or.inr ⟨hnum, by linarith⟩)
  · exact le_refl 0
  · exact hard input_db (by linarith)

theorem step_fields (c : Compression) (x : ℝ) :
    (c.step x).1.ratio = c.ratio ∧ (c.step x).1.attack_coeff = c.attack_coeff ∧
    (c.step x).1.release_coeff = c.release_coeff :=
  ⟨rfl, rfl, rfl⟩

theorem step_envelope_nonpos (c : Compression) (x : ℝ)
    (hr : 1 ≤ c.ratio)
    (hac0 : 0 ≤ c.attack_coeff) (hac1 : c.attack_coeff ≤ 1)
    (hrc0 : 0 ≤ c.release_coeff) (hrc1 : c.release_coeff ≤ 1)
    (henv : c.envelope ≤ 0) :
    (c.step x).1.envelope ≤ 0 := by
  unfold Compression.step
  dsimp only
  set input_db := if (1 / 10000000000 : ℝ) < |x| then 20 * Real.logb 10 |x| else -200
    with hdb
  have htarget : c.computeGain input_db ≤ 0 := computeGain_nonpos c hr input_db
  set t := c.computeGain input_db with ht
  set coeff := if t < c.envelope then c.attack_coeff else c.release_coeff with hcoeff
  have hc0 : 0 ≤ coeff := by
    rw [hcoeff]
    split_ifs
    · exact hac0
    · exact hrc0
  have hc1 : coeff ≤ 1 := by
    rw [hcoeff]
    split_ifs
    · exact hac1
    · exact hrc1
  have h1 : coeff * c.envelope ≤ 0 := mul_nonpos_of_nonneg_of_nonpos hc0 henv
  have h2 : (1 - coeff) * t ≤ 0 :=
    mul_nonpos_of_nonneg_of_nonpos (by linarith) htarget
  nlinarith [h1, h2]

theorem runList_envelope_nonpos (xs : List ℝ) : ∀ c : Compression,
    1 ≤ c.ratio → 0 ≤ c.attack_coeff → c.attack_coeff ≤ 1 →
    0 ≤ c.release_coeff → c.release_coeff ≤ 1 → c.envelope ≤ 0 →
    (c.runList xs).1.envelope ≤ 0 := by
  induction xs with
  | nil =>
    intro c _ _ _ _ _ h6
    exact h6
  | cons x xs ih =>
    intro c h1 h2 h3 h4 h5 h6
    have hstep : (c.runList (x :: xs)).1 = ((c.step x).1.runList xs).1 := rfl
    rw [hstep]
    exact ih (c.step x).1
      ((step_fields c x).1 ▸ h1)
      ((step_fields c x).2.1 ▸ h2)
      ((step_fields c x).2.1 ▸ h3)
      ((step_fields c x).2.2 ▸ h4)
      ((step_fields c x).2.2 ▸ h5)
      (step_envelope_nonpos c x h1 h2 h3 h4 h5 h6)

theorem configure_fields (threshold ratio attack release makeup knee sr : ℝ) :
    Compression.configure threshold ratio attack release makeup knee sr =
      { threshold := threshold, ratio := ratio, attack := attack, release := release,
        makeup := makeup, knee := knee, envelope := 0,
        attack_coeff := Real.exp (-1 / (attack * (1 / 1000) * sr)),
        release_coeff := Real.exp (-1 / (release * (1 / 1000) * sr)) } :=
  rfl

/-- C8: for every compressor configured with ratio at least 1, positive
attack and release times and a positive sample rate, the envelope is 0 (so
nonpositive) after construction and stays nonpositive after running any list
of input samples: the per-sample target gain reduction is nonpositive and
the one-pole update with a coefficient in [0, 1] preserves nonpositivity. -/
theorem c8_compression_envelope_nonpos
    (threshold ratio attack release makeup knee sample_rate : ℝ) (xs : List ℝ)
    (hr : 1 ≤ ratio) (ha : 0 < attack) (hrel : 0 < release) (hsr : 0 < sample_rate) :
    (Compression.configure threshold ratio attack release makeup knee sample_rate).envelope
        ≤ 0 ∧
    ((Compression.configure threshold ratio attack release makeup knee
        sample_rate).runList xs).1.envelope ≤ 0 := by
  have hexp : ∀ time : ℝ, 0 < time → Real.exp (-1 / (time * (1 / 1000) * sample_rate)) ≤ 1 := by
    intro time htime
    rw [Real.exp_le_one_iff]
    have hpos : 0 < time * (1 / 1000) * sample_rate := by positivity
    have hq : 0 ≤ 1 / (time * (1 / 1000) * sample_rate) := by positivity
    rw [neg_div]
    linarith
  constructor
  · rw [configure_fields]
  · apply runList_envelope_nonpos
    · rw [configure_fields]
      exact hr
    · rw [configure_fields]
      exact (Real.exp_pos _).le
    · rw [configure_fields]
      exact hexp attack ha
    · rw [configure_fields]
      exact (Real.exp_pos _).le
    · rw [configure_fields]
      exact hexp release hrel
    · rw [configure_fields]

theorem c8_compression_envelope_nonpos_witness :
    (1 : ℝ) ≤ 4 ∧ (0 : ℝ) < 10 ∧ (0 : ℝ) < 100 ∧ (0 : ℝ) < 44100 ∧
    ((Compression.configure (-20) 4 10 100 0 0 44100).runList [1]).1.envelope ≤ 0 :=
  ⟨by norm_num, by norm_num, by norm_num, by norm_num,
    (c8_compression_envelope_nonpos (-20) 4 10 100 0 0 44100 [1]
      (by norm_num) (by norm_num) (by norm_num) (by norm_num)).2⟩
